import Mathlib

/-!
Shallow embedding of the `eth_graph_parser` repository (`src/main.rs`): a
priority-driven Ethereum transaction-graph crawler, graph filters (price
range, two-way), flow/volume analytics over an hourly USD price series, and
node-list/edge-list graph persistence.

Conventions of the embedding:
* petgraph's `Graph<String, SimplifiedTransaction, Directed>` becomes a
  structure holding the node-label list (in node-index order) and the edge
  list (in edge-index order); node indices are `Nat` positions into the
  node list.
* The Rust code stores `value` (integer wei) and `timeStamp` (unix seconds)
  as decimal strings and parses them with `parse().unwrap()` at every use
  site; the embedding keeps them as naturals.
* `f64` arithmetic is embedded as exact `Rat` arithmetic.
* Functions that can panic (`unwrap`, explicit `panic!`, out-of-bounds
  indexing) return `Option`, with `none` marking the panic.
* `HashMap`s keyed by strings become association lists in insertion order;
  `HashSet`s become lists with membership. The network fetch is an oracle
  `String → List RawTransaction` (the Rust retry loop repeats until some
  response arrives, so the successful response is what the oracle returns).
-/

/-- Edge payload (`SimplifiedTransaction` in main.rs): transaction hash,
value in wei, unix timestamp. -/
structure SimplifiedTransaction where
  hash : String
  value : Nat
  timeStamp : Nat
deriving DecidableEq, Repr

/-- One directed edge of the petgraph multigraph: `source` and `target` are
node indices, `weight` the transaction payload. -/
structure EdgeRec where
  source : Nat
  target : Nat
  weight : SimplifiedTransaction
deriving DecidableEq, Repr

/-- `type G = Graph<String, SimplifiedTransaction, Directed>`: node labels
in node-index order and edges in insertion (edge-index) order. -/
structure G where
  nodes : List String
  edges : List EdgeRec
deriving DecidableEq, Repr

/-- `SerializableGraph` of main.rs: node list plus
(source-index, target-index, payload) triples. -/
structure SerializableGraph where
  nodes : List String
  edges : List (Nat × Nat × SimplifiedTransaction)
deriving DecidableEq, Repr

/-- `EthPriceRecord` of main.rs: an hourly price bucket
`[start, start + 3600)` with its average USD price. -/
structure EthPriceRecord where
  unix_epoch_at_the_start_of_averaging_period : Nat
  average_price_in_usd : Rat
deriving DecidableEq, Repr

/-- The bucket test of `get_price_at_timestamp`:
`period_start <= timestamp && timestamp < period_start + 3600`. -/
def bucket_matches (timestamp : Nat) (price : EthPriceRecord) : Bool :=
  decide (price.unix_epoch_at_the_start_of_averaging_period ≤ timestamp ∧
    timestamp < price.unix_epoch_at_the_start_of_averaging_period + 3600)

/-- `prices.iter().max_by(...)` on the bucket-start field. Rust's `max_by`
returns the last of several equal maxima, which the tie branch reproduces. -/
def last_record : List EthPriceRecord → Option EthPriceRecord
  | [] => none
  | r :: rs =>
    match last_record rs with
    | none => some r
    | some m =>
      if r.unix_epoch_at_the_start_of_averaging_period ≤
          m.unix_epoch_at_the_start_of_averaging_period
      then some m else some r

/-- `get_price_at_timestamp` of main.rs: first matching hourly bucket wins;
otherwise extrapolate forward from the latest bucket when the timestamp is
past its start; otherwise panic (`none`: the `panic!("No price found")`
branch, or the `unwrap` of `max_by` on an empty series). -/
def get_price_at_timestamp (timestamp : Nat) (prices : List EthPriceRecord) :
    Option Rat :=
  match prices.find? (bucket_matches timestamp) with
  | some price => some price.average_price_in_usd
  | none =>
    match last_record prices with
    | none => none
    | some last =>
      if last.unix_epoch_at_the_start_of_averaging_period < timestamp
      then some last.average_price_in_usd
      else none

/-- C5: price lookup. For a fixed series the lookup is a pure function of the
timestamp (it is a Lean function below). (a) A timestamp lying in a bucket
`[start, start + 3600)` that is the unique matching bucket yields that
bucket's price; (b) a timestamp matching no bucket but greater than the
latest bucket start yields the latest bucket's price; (c) a timestamp
matching no bucket and not greater than the latest bucket start (this
includes every timestamp before the first bucket, and the empty series)
makes the lookup fail. -/
theorem C5_price_lookup (timestamp : Nat) (prices : List EthPriceRecord) :
    (∀ r ∈ prices,
      r.unix_epoch_at_the_start_of_averaging_period ≤ timestamp →
      timestamp < r.unix_epoch_at_the_start_of_averaging_period + 3600 →
      (∀ r' ∈ prices,
        r'.unix_epoch_at_the_start_of_averaging_period ≤ timestamp →
        timestamp < r'.unix_epoch_at_the_start_of_averaging_period + 3600 →
        r' = r) →
      get_price_at_timestamp timestamp prices = some r.average_price_in_usd) ∧
    (∀ m, (∀ r ∈ prices,
        ¬ (r.unix_epoch_at_the_start_of_averaging_period ≤ timestamp ∧
          timestamp < r.unix_epoch_at_the_start_of_averaging_period + 3600)) →
      last_record prices = some m →
      m.unix_epoch_at_the_start_of_averaging_period < timestamp →
      get_price_at_timestamp timestamp prices = some m.average_price_in_usd) ∧
    ((∀ r ∈ prices,
        ¬ (r.unix_epoch_at_the_start_of_averaging_period ≤ timestamp ∧
          timestamp < r.unix_epoch_at_the_start_of_averaging_period + 3600)) →
      (∀ m, last_record prices = some m →
        timestamp ≤ m.unix_epoch_at_the_start_of_averaging_period) →
      get_price_at_timestamp timestamp prices = none) := by
  refine ⟨?_, ?_, ?_⟩
  · intro r hr h1 h2 huniq
    have hmatch : bucket_matches timestamp r = true := by
      simp [bucket_matches, h1, h2]
    have hsome : ∃ a, prices.find? (bucket_matches timestamp) = some a := by
      rcases h : prices.find? (bucket_matches timestamp) with _ | a
      · exfalso
        rw [List.find?_eq_none] at h
        exact absurd hmatch (h r hr)
      · exact ⟨a, rfl⟩
    rcases hsome with ⟨a, ha⟩
    have hpa : bucket_matches timestamp a = true := List.find?_some ha
    have hma : a ∈ prices := List.mem_of_find?_eq_some ha
    simp only [bucket_matches, decide_eq_true_eq] at hpa
    have : a = r := huniq a hma hpa.1 hpa.2
    subst this
    simp [get_price_at_timestamp, ha]
  · intro m hnone hlast hgt
    have hfind : prices.find? (bucket_matches timestamp) = none := by
      rw [List.find?_eq_none]
      intro r hr
      simp only [bucket_matches, decide_eq_true_eq]
      simpa using hnone r hr
    simp [get_price_at_timestamp, hfind, hlast, hgt]
  · intro hnone hle
    have hfind : prices.find? (bucket_matches timestamp) = none := by
      rw [List.find?_eq_none]
      intro r hr
      simp only [bucket_matches, decide_eq_true_eq]
      simpa using hnone r hr
    rcases h : last_record prices with _ | m
    · simp [get_price_at_timestamp, hfind, h]
    · have := hle m h
      simp [get_price_at_timestamp, hfind, h, Nat.not_lt.mpr this]

/-- Witness for C5 at concrete inputs: series `[0,3600)` price 5 and
`[7200,10800)` price 9. Timestamp 7300 sits in the second bucket; 20000 is
past every bucket; 4000 falls in the gap between the buckets. -/
theorem C5_price_lookup_witness :
    get_price_at_timestamp 7300 [⟨0, 5⟩, ⟨7200, 9⟩] = some 9 ∧
    get_price_at_timestamp 20000 [⟨0, 5⟩, ⟨7200, 9⟩] = some 9 ∧
    get_price_at_timestamp 4000 [⟨0, 5⟩, ⟨7200, 9⟩] = none := by
  refine ⟨?_, ?_, ?_⟩
  · exact (C5_price_lookup 7300 [⟨0, 5⟩, ⟨7200, 9⟩]).1 ⟨7200, 9⟩ (by decide)
      (by decide) (by decide) (by decide)
  · exact (C5_price_lookup 20000 [⟨0, 5⟩, ⟨7200, 9⟩]).2.1 ⟨7200, 9⟩
      (by decide) (by decide) (by decide)
  · exact (C5_price_lookup 4000 [⟨0, 5⟩, ⟨7200, 9⟩]).2.2 (by decide)
      (by decide)

/-- USD value of a transaction at a given ETH price:
`(volume_wei / 1e18) * eth_price` in main.rs, embedded exactly over `Rat`. -/
def transaction_value_in_usd (t : SimplifiedTransaction) (eth_price : Rat) : Rat :=
  (t.value : Rat) / 10 ^ 18 * eth_price

/-- `filter_twoway_edges` of main.rs: clone the graph, clear its edges, then
re-add every source edge whose reversed ordered pair has at least one edge
(`graph.find_edge(target, source).is_some()`). -/
def filter_twoway_edges (graph : G) : G :=
  { nodes := graph.nodes
    edges := graph.edges.filter (fun edge =>
      graph.edges.any (fun e2 =>
        e2.source == edge.target && e2.target == edge.source)) }

/-- C3: two-way filter. The filtered graph keeps every occurrence of an edge
A→B of the source graph for which at least one reverse edge B→A exists in the
source graph, and contains no other edges: stated both as a membership
biconditional and as preservation of edge multiplicities. -/
theorem C3_twoway_filter (g : G) :
    (filter_twoway_edges g).nodes = g.nodes ∧
    (∀ e, e ∈ (filter_twoway_edges g).edges ↔
      (e ∈ g.edges ∧ ∃ e2 ∈ g.edges,
        e2.source = e.target ∧ e2.target = e.source)) ∧
    (∀ e, (filter_twoway_edges g).edges.count e =
      (if ∃ e2 ∈ g.edges, e2.source = e.target ∧ e2.target = e.source
        then g.edges.count e else 0)) := by
  have hmem : ∀ e, e ∈ (filter_twoway_edges g).edges ↔
      (e ∈ g.edges ∧ ∃ e2 ∈ g.edges,
        e2.source = e.target ∧ e2.target = e.source) := by
    intro e
    simp [filter_twoway_edges, List.mem_filter, List.any_eq_true]
  refine ⟨rfl, hmem, ?_⟩
  intro e
  by_cases hex : ∃ e2 ∈ g.edges, e2.source = e.target ∧ e2.target = e.source
  · rw [if_pos hex]
    have hb : (g.edges.any fun e2 =>
        e2.source == e.target && e2.target == e.source) = true := by
      simpa [List.any_eq_true] using hex
    simpa [filter_twoway_edges] using
      List.count_filter (a := e) (l := g.edges) hb
  · rw [if_neg hex]
    rw [List.count_eq_zero]
    intro hc
    exact hex ((hmem e).mp hc).2

/-- Edge scan of `filter_by_transaction_price`: for each edge look up the ETH
price at the edge's timestamp (a failed lookup aborts the whole filter, as
the Rust panic would), compute the USD value, and keep the edge when
`lower_usd_bound <= value && value <= higher_usd_bound`. -/
def price_filter_edges (prices : List EthPriceRecord)
    (lower_usd_bound higher_usd_bound : Rat) :
    List EdgeRec → Option (List EdgeRec)
  | [] => some []
  | edge :: rest => do
    let eth_price ← get_price_at_timestamp edge.weight.timeStamp prices
    let value_usd := transaction_value_in_usd edge.weight eth_price
    let tail ← price_filter_edges prices lower_usd_bound higher_usd_bound rest
    pure (if lower_usd_bound ≤ value_usd ∧ value_usd ≤ higher_usd_bound
      then edge :: tail else tail)

/-- `filter_by_transaction_price` of main.rs: clone the graph, clear its
edges, re-add the edges whose USD value lies in the inclusive bound range. -/
def filter_by_transaction_price (graph : G) (prices : List EthPriceRecord)
    (lower_usd_bound higher_usd_bound : Rat) : Option G :=
  (price_filter_edges prices lower_usd_bound higher_usd_bound graph.edges).map
    (fun kept => { nodes := graph.nodes, edges := kept })

lemma price_filter_edges_mem (prices : List EthPriceRecord) (lo hi : Rat) :
    ∀ (l kept : List EdgeRec),
    price_filter_edges prices lo hi l = some kept →
    ∀ e, e ∈ kept ↔ (e ∈ l ∧ ∃ p,
      get_price_at_timestamp e.weight.timeStamp prices = some p ∧
      lo ≤ transaction_value_in_usd e.weight p ∧
      transaction_value_in_usd e.weight p ≤ hi) := by
  intro l
  induction l with
  | nil =>
    intro kept h e
    simp [price_filter_edges] at h
    subst h
    simp
  | cons edge rest ih =>
    intro kept h e
    rcases hp : get_price_at_timestamp edge.weight.timeStamp prices with _ | p
    · simp [price_filter_edges, hp] at h
    rcases ht : price_filter_edges prices lo hi rest with _ | tail
    · simp [price_filter_edges, hp, ht] at h
    have hkept : kept =
        (if lo ≤ transaction_value_in_usd edge.weight p ∧
            transaction_value_in_usd edge.weight p ≤ hi
          then edge :: tail else tail) := by
      simp [price_filter_edges, hp, ht] at h
      exact h.symm
    by_cases hcond : lo ≤ transaction_value_in_usd edge.weight p ∧
        transaction_value_in_usd edge.weight p ≤ hi
    · rw [hkept, if_pos hcond]
      constructor
      · intro hmem
        rcases List.mem_cons.mp hmem with rfl | hmem'
        · exact ⟨List.mem_cons_self _ _, p, hp, hcond⟩
        · have := (ih tail ht e).mp hmem'
          exact ⟨List.mem_cons_of_mem _ this.1, this.2⟩
      · intro ⟨hmem, hcond'⟩
        rcases List.mem_cons.mp hmem with rfl | hmem'
        · exact List.mem_cons_self _ _
        · exact List.mem_cons_of_mem _ ((ih tail ht e).mpr ⟨hmem', hcond'⟩)
    · rw [hkept, if_neg hcond]
      constructor
      · intro hmem
        have := (ih tail ht e).mp hmem
        exact ⟨List.mem_cons_of_mem _ this.1, this.2⟩
      · intro ⟨hmem, hcond'⟩
        rcases List.mem_cons.mp hmem with rfl | hmem'
        · rcases hcond' with ⟨p', hp', hb⟩
          rw [hp] at hp'
          cases hp'
          exact absurd hb hcond
        · exact (ih tail ht e).mpr ⟨hmem', hcond'⟩

/-- C4: price-range filter. When the filter succeeds (every price lookup
succeeded, as in any non-panicking Rust run), the result keeps the node set
of the source graph unchanged — isolated nodes included — and contains an
edge iff that edge is in the source graph and its USD value
(wei / 10^18 × price at its timestamp) lies within the inclusive bounds. -/
theorem C4_price_filter (g : G) (prices : List EthPriceRecord)
    (lo hi : Rat) (g' : G)
    (h : filter_by_transaction_price g prices lo hi = some g') :
    g'.nodes = g.nodes ∧
    ∀ e, e ∈ g'.edges ↔ (e ∈ g.edges ∧ ∃ p,
      get_price_at_timestamp e.weight.timeStamp prices = some p ∧
      lo ≤ transaction_value_in_usd e.weight p ∧
      transaction_value_in_usd e.weight p ≤ hi) := by
  rcases hk : price_filter_edges prices lo hi g.edges with _ | kept
  · simp [filter_by_transaction_price, hk] at h
  · simp [filter_by_transaction_price, hk] at h
    subst h
    exact ⟨rfl, price_filter_edges_mem prices lo hi g.edges kept hk⟩

/-- Witness for C4 at a concrete input: two edges worth 10 USD and 200 USD
at price 2 USD/ETH; the `[1, 50]` filter keeps exactly the 10-USD edge and
preserves the node list. -/
theorem C4_price_filter_witness :
    filter_by_transaction_price
      ⟨["A", "B"], [⟨0, 1, ⟨"h1", 5 * 10 ^ 18, 100⟩⟩,
        ⟨1, 0, ⟨"h2", 100 * 10 ^ 18, 100⟩⟩]⟩ [⟨0, 2⟩] 1 50 =
      some ⟨["A", "B"], [⟨0, 1, ⟨"h1", 5 * 10 ^ 18, 100⟩⟩]⟩ ∧
    (G.mk ["A", "B"] [⟨0, 1, ⟨"h1", 5 * 10 ^ 18, 100⟩⟩]).nodes = ["A", "B"] ∧
    (⟨0, 1, ⟨"h1", 5 * 10 ^ 18, 100⟩⟩ : EdgeRec) ∈
      (G.mk ["A", "B"] [⟨0, 1, ⟨"h1", 5 * 10 ^ 18, 100⟩⟩]).edges := by
  have h : filter_by_transaction_price
      ⟨["A", "B"], [⟨0, 1, ⟨"h1", 5 * 10 ^ 18, 100⟩⟩,
        ⟨1, 0, ⟨"h2", 100 * 10 ^ 18, 100⟩⟩]⟩ [⟨0, 2⟩] 1 50 =
      some ⟨["A", "B"], [⟨0, 1, ⟨"h1", 5 * 10 ^ 18, 100⟩⟩]⟩ := by
    norm_num [filter_by_transaction_price, price_filter_edges,
      get_price_at_timestamp, bucket_matches, List.find?,
      transaction_value_in_usd]
  refine ⟨h, (C4_price_filter _ _ _ _ _ h).1, ?_⟩
  refine ((C4_price_filter _ _ _ _ _ h).2 _).mpr
    ⟨by decide, 2, ?_, ?_, ?_⟩
  · norm_num [get_price_at_timestamp, bucket_matches, List.find?]
  · norm_num [transaction_value_in_usd]
  · norm_num [transaction_value_in_usd]

/-- `serialize_graph` of main.rs (the in-memory half: the JSON file write is
an I/O adapter): node labels in node-index order, then
`(source.index(), target.index(), weight)` triples in edge-index order. -/
def serialize_graph (graph : G) : SerializableGraph :=
  { nodes := graph.nodes
    edges := graph.edges.map (fun e => (e.source, e.target, e.weight)) }

/-- `deserialize_graph` of main.rs (the in-memory half): add the nodes in
order, collecting their indices, then add each edge through the collected
index vector; an out-of-range stored index is the Rust
`node_indices[source]` panic, `none` here. -/
def deserialize_graph (sg : SerializableGraph) : Option G :=
  let start : G × List Nat := (⟨[], []⟩, [])
  let built := sg.nodes.foldl
    (fun (acc : G × List Nat) node =>
      (⟨acc.1.nodes ++ [node], acc.1.edges⟩, acc.2 ++ [acc.1.nodes.length]))
    start
  sg.edges.foldlM
    (fun (graph : G) edge => do
      let si ← built.2[edge.1]?
      let ti ← built.2[edge.2.1]?
      pure (⟨graph.nodes, graph.edges ++ [⟨si, ti, edge.2.2⟩]⟩ : G))
    built.1

/-- Every edge's endpoints are in-range node indices; every graph petgraph
can hand to `serialize_graph` satisfies this. -/
def wellformed (graph : G) : Prop :=
  ∀ e ∈ graph.edges,
    e.source < graph.nodes.length ∧ e.target < graph.nodes.length

lemma deserialize_nodes_fold (l : List String) :
    ∀ (g0 : G) (idx : List Nat),
    l.foldl
      (fun (acc : G × List Nat) node =>
        (⟨acc.1.nodes ++ [node], acc.1.edges⟩, acc.2 ++ [acc.1.nodes.length]))
      (g0, idx) =
    (⟨g0.nodes ++ l, g0.edges⟩, idx ++ List.range' g0.nodes.length l.length) := by
  induction l with
  | nil => intro g0 idx; simp
  | cons a t ih =>
    intro g0 idx
    rw [List.foldl_cons, ih]
    simp [List.range'_succ, List.append_assoc]

lemma deserialize_edges_fold (n : Nat) :
    ∀ (l : List EdgeRec) (acc : G),
    (∀ e ∈ l, e.source < n ∧ e.target < n) →
    (l.map (fun e => (e.source, e.target, e.weight))).foldlM
      (fun (graph : G) edge => do
        let si ← (List.range' 0 n)[edge.1]?
        let ti ← (List.range' 0 n)[edge.2.1]?
        pure (⟨graph.nodes, graph.edges ++ [⟨si, ti, edge.2.2⟩]⟩ : G))
      acc = some ⟨acc.nodes, acc.edges ++ l⟩ := by
  intro l
  induction l with
  | nil => intro acc _; simp
  | cons e t ih =>
    intro acc hwf
    have h1 : e.source < n := (hwf e (List.mem_cons_self _ _)).1
    have h2 : e.target < n := (hwf e (List.mem_cons_self _ _)).2
    have hs : (List.range' 0 n)[e.source]? = some e.source := by
      simpa using List.getElem?_range' 0 1 h1
    have ht : (List.range' 0 n)[e.target]? = some e.target := by
      simpa using List.getElem?_range' 0 1 h2
    rw [List.map_cons, List.foldlM_cons]
    simp only [hs, ht, Option.bind_eq_bind, Option.some_bind, Option.pure_def]
    have ih' := ih ⟨acc.nodes, acc.edges ++ [⟨e.source, e.target, e.weight⟩]⟩
      (fun x hx => hwf x (List.mem_cons_of_mem _ hx))
    simpa using ih'

/-- C7: persistence round-trip. For every graph whose edges reference
in-range node indices, serializing to the node-list/edge-list representation
and deserializing it back reproduces the graph exactly: identical node
labels, edge count, edge multiplicities and per-edge payloads. -/
theorem C7_serialize_roundtrip (g : G) (h : wellformed g) :
    deserialize_graph (serialize_graph g) = some g := by
  rcases g with ⟨nodes, edges⟩
  rw [deserialize_graph, serialize_graph]
  simp only
  rw [deserialize_nodes_fold nodes ⟨[], []⟩ []]
  simp only [List.nil_append]
  have := deserialize_edges_fold nodes.length edges ⟨nodes, []⟩
    (fun e he => h e he)
  simpa using this

/-- Witness for C7 at a concrete input: a two-node graph with parallel edges
and a self-loop round-trips unchanged. -/
theorem C7_serialize_roundtrip_witness :
    deserialize_graph (serialize_graph
      ⟨["A", "B"], [⟨0, 1, ⟨"h1", 7, 50⟩⟩, ⟨0, 1, ⟨"h2", 8, 60⟩⟩,
        ⟨1, 1, ⟨"h3", 9, 70⟩⟩]⟩) =
    some ⟨["A", "B"], [⟨0, 1, ⟨"h1", 7, 50⟩⟩, ⟨0, 1, ⟨"h2", 8, 60⟩⟩,
      ⟨1, 1, ⟨"h3", 9, 70⟩⟩]⟩ :=
  C7_serialize_roundtrip
    ⟨["A", "B"], [⟨0, 1, ⟨"h1", 7, 50⟩⟩, ⟨0, 1, ⟨"h2", 8, 60⟩⟩,
      ⟨1, 1, ⟨"h3", 9, 70⟩⟩]⟩ (by unfold wellformed; decide)

/-- The fields of the Etherscan `RawTransaction` that
`graph_data_collection_procedure` inspects (the remaining fields of the
Rust struct are never read by the crawler). `value` and `timeStamp` are kept
as naturals as for `SimplifiedTransaction`. -/
structure RawTransaction where
  «from» : String
  «to» : String
  hash : String
  value : Nat
  timeStamp : Nat
  isError : String
  contractAddress : String
deriving DecidableEq, Repr

/-- The crawl state threaded by `parse_blockchain` through
`graph_data_collection_procedure`: the graph, the `node_indices` map
(address → node index), the `edges` dedup map (only key membership and
insertion are ever used on it, so its key list is kept), the
`address_relevance_counter`, and the `trajectory` of visited addresses.
`HashMap`s become association lists in insertion order. -/
structure CrawlState where
  blockchain_graph : G
  node_indices : List (String × Nat)
  edges : List String
  address_relevance_counter : List (String × Nat)
  trajectory : List String
deriving DecidableEq, Repr

/-- Association-list lookup: the embedding of a `HashMap` read. -/
def alookup : List (String × Nat) → String → Option Nat
  | [], _ => none
  | p :: rest, key => if p.1 = key then some p.2 else alookup rest key

/-- `*map.entry(key).or_insert(0) += 1`: bump the binding of the key, or
insert a fresh binding with count 0 + 1. -/
def bump : List (String × Nat) → String → List (String × Nat)
  | [], key => [(key, 1)]
  | p :: rest, key =>
    if p.1 = key then (p.1, p.2 + 1) :: rest else p :: bump rest key

/-- The relevance score of an address (0 when absent). -/
def relevance_score (counter : List (String × Nat)) (address : String) : Nat :=
  (alookup counter address).getD 0

/-- `node_indices.entry(a).or_insert_with(|| blockchain_graph.add_node(a))`:
the node index of `a`, adding a graph node and an index binding when the
address is new. Returns (index, node_indices, blockchain_graph). -/
def ensure_node (node_indices : List (String × Nat)) (graph : G)
    (a : String) : Nat × List (String × Nat) × G :=
  match alookup node_indices a with
  | some i => (i, node_indices, graph)
  | none =>
    (graph.nodes.length, node_indices ++ [(a, graph.nodes.length)],
      ⟨graph.nodes ++ [a], graph.edges⟩)

/-- The acceptance test of `graph_data_collection_procedure`:
`contractAddress == "" && isError == "0" && from != "GENESIS" &&
!edges.contains_key(hash)`. -/
def transaction_accepted (st : CrawlState) (t : RawTransaction) : Bool :=
  decide (t.contractAddress = "" ∧ t.isError = "0" ∧ t.«from» ≠ "GENESIS" ∧
    t.hash ∉ st.edges)

/-- The body of the transaction loop of `graph_data_collection_procedure`.
A rejected transaction leaves the state unchanged; an accepted one bumps the
relevance count of `to` then of `from` (source order), ensures a node for
`from` then for `to`, records the hash in the dedup map and appends the
edge. -/
def process_transaction (st : CrawlState) (t : RawTransaction) : CrawlState :=
  if transaction_accepted st t then
    let counter1 := bump (bump st.address_relevance_counter t.to) t.«from»
    let simplified : SimplifiedTransaction := ⟨t.hash, t.value, t.timeStamp⟩
    let r1 := ensure_node st.node_indices st.blockchain_graph t.«from»
    let r2 := ensure_node r1.2.1 r1.2.2 t.to
    { blockchain_graph :=
        ⟨r2.2.2.nodes, r2.2.2.edges ++ [⟨r1.1, r2.1, simplified⟩]⟩
      node_indices := r2.2.1
      edges := st.edges ++ [t.hash]
      address_relevance_counter := counter1
      trajectory := st.trajectory }
  else st

/-- `graph_data_collection_procedure` once its retry loop has obtained a
response (the fetch oracle stands for the eventually-successful network
call): fold the per-transaction step over the response's transaction list. -/
def graph_data_collection_procedure (st : CrawlState)
    (response_result : List RawTransaction) : CrawlState :=
  response_result.foldl process_transaction st

/-- The Selection step of `parse_blockchain`: clone the relevance counter,
sort it by score descending (`counts.sort_by(|a, b| b.1.cmp(&a.1))`, a
stable sort; the arbitrary pre-sort `HashMap` iteration order becomes the
association list's insertion order), then take the first address not yet in
the trajectory. `none` is the case in which the Rust `.find(...).unwrap()`
panics. -/
def select_priority_address (address_relevance_counter : List (String × Nat))
    (trajectory : List String) : Option String :=
  ((address_relevance_counter.insertionSort (fun a b => b.2 ≤ a.2)).map
    Prod.fst).find? (fun address => !trajectory.contains address)

/-- Outcome of the crawl loop: the returned graph, the `unwrap` panic of the
Selection step on an exhausted frontier, or exhaustion of the fuel the
embedding gives the unbounded Rust `loop`. -/
inductive CrawlResult where
  | done (graph : G)
  | panicked
  | fuelOut
deriving DecidableEq, Repr

/-- The `loop` of `parse_blockchain`. At the top of each iteration the edge
count is compared with the configured maximum (return the graph when
reached); then the Selection step picks the next address (panicking when
every known address is visited), pushes it on the trajectory, and its
fetched transactions are processed. -/
def parse_blockchain_loop (fetch : String → List RawTransaction)
    (max_transactions_to_parse : Nat) :
    Nat → CrawlState → CrawlResult
  | 0, _ => .fuelOut
  | fuel + 1, st =>
    if max_transactions_to_parse ≤ st.blockchain_graph.edges.length then
      .done st.blockchain_graph
    else
      match select_priority_address st.address_relevance_counter
          st.trajectory with
      | none => .panicked
      | some priority_address =>
        parse_blockchain_loop fetch max_transactions_to_parse fuel
          (graph_data_collection_procedure
            { st with trajectory := st.trajectory ++ [priority_address] }
            (fetch priority_address))

/-- Rust `str::to_lowercase()`: character-wise lowercasing, defined as a
structural map over the string's characters. -/
def to_lowercase (s : String) : String := ⟨s.data.map Char.toLower⟩

/-- `parse_blockchain`: empty graph, empty maps, the lowercased seed address
alone in the relevance counter with score 1, then the loop. -/
def parse_blockchain (fetch : String → List RawTransaction)
    (max_transactions_to_parse fuel : Nat)
    (traversal_starting_adress : String) : CrawlResult :=
  parse_blockchain_loop fetch max_transactions_to_parse fuel
    { blockchain_graph := ⟨[], []⟩
      node_indices := []
      edges := []
      address_relevance_counter := [(to_lowercase traversal_starting_adress, 1)]
      trajectory := [] }

/-- The Rust constant `MAX_TRANSACTIONS_TO_PARSE` (the configured edge
budget of the bundled binary; the theorems keep it a parameter). -/
def MAX_TRANSACTIONS_TO_PARSE : Nat := 100000000

/-- The transaction hashes labelling the edges of a graph. -/
def edge_hashes (graph : G) : List String :=
  graph.edges.map (fun e => e.weight.hash)

lemma ensure_node_edges (idx : List (String × Nat)) (g : G) (a : String) :
    (ensure_node idx g a).2.2.edges = g.edges := by
  rcases h : alookup idx a with _ | i <;> simp [ensure_node, h]

lemma process_transaction_rejected (st : CrawlState) (t : RawTransaction)
    (h : transaction_accepted st t = false) :
    process_transaction st t = st := by
  simp [process_transaction, h]

lemma process_transaction_accepted_edges (st : CrawlState)
    (t : RawTransaction) (h : transaction_accepted st t = true) :
    ∃ src tgt, (process_transaction st t).blockchain_graph.edges =
      st.blockchain_graph.edges ++
        [⟨src, tgt, ⟨t.hash, t.value, t.timeStamp⟩⟩] := by
  refine ⟨(ensure_node st.node_indices st.blockchain_graph t.«from»).1,
    (ensure_node (ensure_node st.node_indices st.blockchain_graph
      t.«from»).2.1 (ensure_node st.node_indices st.blockchain_graph
      t.«from»).2.2 t.to).1, ?_⟩
  simp [process_transaction, h, ensure_node_edges]

lemma process_transaction_accepted_hashes (st : CrawlState)
    (t : RawTransaction) (h : transaction_accepted st t = true) :
    (process_transaction st t).edges = st.edges ++ [t.hash] := by
  simp [process_transaction, h]

lemma process_transaction_accepted_counter (st : CrawlState)
    (t : RawTransaction) (h : transaction_accepted st t = true) :
    (process_transaction st t).address_relevance_counter =
      bump (bump st.address_relevance_counter t.to) t.«from» := by
  simp [process_transaction, h]

lemma process_transaction_trajectory (st : CrawlState) (t : RawTransaction) :
    (process_transaction st t).trajectory = st.trajectory := by
  cases hb : transaction_accepted st t <;> simp [process_transaction, hb]

lemma graph_data_collection_preserves (P : CrawlState → Prop)
    (hP : ∀ st t, P st → P (process_transaction st t)) :
    ∀ (l : List RawTransaction) (st : CrawlState), P st →
      P (graph_data_collection_procedure st l) := by
  intro l
  induction l with
  | nil => intro st h; exact h
  | cons t rest ih =>
    intro st h
    exact ih (process_transaction st t) (hP st t h)

lemma parse_blockchain_loop_reaches (fetch : String → List RawTransaction)
    (M : Nat) (P : CrawlState → Prop)
    (hP : ∀ st t, P st → P (process_transaction st t))
    (hT : ∀ st a, P st → P { st with trajectory := st.trajectory ++ [a] }) :
    ∀ (fuel : Nat) (st : CrawlState) (g : G), P st →
      parse_blockchain_loop fetch M fuel st = .done g →
      ∃ st', P st' ∧ st'.blockchain_graph = g := by
  intro fuel
  induction fuel with
  | zero => intro st g _ h; simp [parse_blockchain_loop] at h
  | succ fuel ih =>
    intro st g hPst h
    rw [parse_blockchain_loop] at h
    by_cases hstop : M ≤ st.blockchain_graph.edges.length
    · rw [if_pos hstop] at h
      cases h
      exact ⟨st, hPst, rfl⟩
    · rw [if_neg hstop] at h
      rcases hsel : select_priority_address st.address_relevance_counter
          st.trajectory with _ | a
      · rw [hsel] at h; cases h
      · rw [hsel] at h
        exact ih _ g (graph_data_collection_preserves P hP (fetch a) _
          (hT st a hPst)) h

/-- The dedup invariant of C1: every edge hash is recorded in the `edges`
map, and no hash labels two edges. -/
def dedup_inv (st : CrawlState) : Prop :=
  (∀ x ∈ edge_hashes st.blockchain_graph, x ∈ st.edges) ∧
    (edge_hashes st.blockchain_graph).Nodup

lemma process_transaction_dedup_inv (st : CrawlState) (t : RawTransaction)
    (h : dedup_inv st) : dedup_inv (process_transaction st t) := by
  cases hb : transaction_accepted st t
  · rw [process_transaction_rejected st t hb]; exact h
  · obtain ⟨src, tgt, hedges⟩ := process_transaction_accepted_edges st t hb
    have hnotin : t.hash ∉ st.edges := by
      have hb' := hb
      simp only [transaction_accepted, decide_eq_true_eq] at hb'
      exact hb'.2.2.2
    have hmap : edge_hashes (process_transaction st t).blockchain_graph =
        edge_hashes st.blockchain_graph ++ [t.hash] := by
      rw [edge_hashes, hedges]
      simp [edge_hashes]
    constructor
    · intro x hx
      rw [hmap] at hx
      rw [process_transaction_accepted_hashes st t hb]
      rcases List.mem_append.mp hx with hx' | hx'
      · exact List.mem_append.mpr (Or.inl (h.1 x hx'))
      · exact List.mem_append.mpr (Or.inr hx')
    · rw [hmap]
      rw [List.nodup_append]
      refine ⟨h.2, List.nodup_singleton _, ?_⟩
      intro x hx hx'
      rw [List.mem_singleton] at hx'
      subst hx'
      exact hnotin (h.1 _ hx)

/-- C1: transaction-hash deduplication. Whenever the crawl loop returns a
graph, no transaction hash labels more than one of its edges; and a
transaction whose hash is already recorded in the `edges` dedup map is
skipped with no state change at all. -/
theorem C1_transaction_hash_dedup (fetch : String → List RawTransaction)
    (M fuel : Nat) (seed : String) (g : G)
    (h : parse_blockchain fetch M fuel seed = .done g) :
    (edge_hashes g).Nodup ∧
    (∀ st t, t.hash ∈ st.edges → process_transaction st t = st) := by
  constructor
  · obtain ⟨st', hP, hg⟩ := parse_blockchain_loop_reaches fetch M dedup_inv
      (fun st t hp => process_transaction_dedup_inv st t hp)
      (fun st a hp => hp) fuel _ g
      (by constructor <;> simp [dedup_inv, edge_hashes]) h
    exact hg ▸ hP.2
  · intro st t ht
    apply process_transaction_rejected
    simp [transaction_accepted, ht]

lemma relevance_score_bump_self (l : List (String × Nat)) (key : String) :
    relevance_score (bump l key) key = relevance_score l key + 1 := by
  induction l with
  | nil => simp [bump, relevance_score, alookup]
  | cons p rest ih =>
    by_cases h : p.1 = key
    · simp [bump, h, relevance_score, alookup]
    · simp only [bump, if_neg h]
      simp only [relevance_score, alookup, if_neg h]
      exact ih

lemma relevance_score_bump_other (l : List (String × Nat)) (key j : String)
    (hne : j ≠ key) :
    relevance_score (bump l key) j = relevance_score l j := by
  induction l with
  | nil => simp [bump, relevance_score, alookup, Ne.symm hne]
  | cons p rest ih =>
    by_cases h : p.1 = key
    · have hpj : ¬ p.1 = j := by rw [h]; exact Ne.symm hne
      simp [bump, h, relevance_score, alookup, hpj, Ne.symm hne]
    · by_cases hpj : p.1 = j
      · simp [bump, h, relevance_score, alookup, hpj, hne]
      · simp only [bump, if_neg h]
        simp only [relevance_score, alookup, if_neg hpj]
        exact ih

/-- C10: the implicit acceptance filter. A fetched transaction changes the
crawl state iff its contract-address field is empty, its error flag is "0",
its from-address is not the literal "GENESIS", and its hash is not already a
known edge; in particular a GENESIS transaction is always skipped with no
state change, and an accepted transaction adds exactly one edge, records its
hash, and increments both endpoints' relevance scores. -/
theorem C10_genesis_rejection (st : CrawlState) (t : RawTransaction) :
    (process_transaction st t ≠ st ↔
      (t.contractAddress = "" ∧ t.isError = "0" ∧ t.«from» ≠ "GENESIS" ∧
        t.hash ∉ st.edges)) ∧
    (t.«from» = "GENESIS" → process_transaction st t = st) ∧
    ((t.contractAddress = "" ∧ t.isError = "0" ∧ t.«from» ≠ "GENESIS" ∧
        t.hash ∉ st.edges) →
      (process_transaction st t).blockchain_graph.edges.length =
        st.blockchain_graph.edges.length + 1 ∧
      t.hash ∈ (process_transaction st t).edges ∧
      (t.«from» ≠ t.to →
        relevance_score (process_transaction st t).address_relevance_counter
            t.to = relevance_score st.address_relevance_counter t.to + 1 ∧
        relevance_score (process_transaction st t).address_relevance_counter
            t.«from» =
          relevance_score st.address_relevance_counter t.«from» + 1)) := by
  have haccept : ∀ (hc : t.contractAddress = "" ∧ t.isError = "0" ∧
      t.«from» ≠ "GENESIS" ∧ t.hash ∉ st.edges),
      transaction_accepted st t = true := by
    intro hc
    simp [transaction_accepted, hc.1, hc.2.1, hc.2.2.1, hc.2.2.2]
  refine ⟨⟨?_, ?_⟩, ?_, ?_⟩
  · intro hne
    by_contra hc
    have : transaction_accepted st t = false := by
      simp only [transaction_accepted, decide_eq_false_iff_not]
      exact hc
    exact hne (process_transaction_rejected st t this)
  · intro hc
    have hb := haccept hc
    intro heq
    have hlen : (process_transaction st t).edges.length = st.edges.length := by
      rw [heq]
    rw [process_transaction_accepted_hashes st t hb] at hlen
    simp at hlen
  · intro hgen
    apply process_transaction_rejected
    simp [transaction_accepted, hgen]
  · intro hc
    have hb := haccept hc
    obtain ⟨src, tgt, hedges⟩ := process_transaction_accepted_edges st t hb
    refine ⟨?_, ?_, ?_⟩
    · rw [hedges]; simp
    · rw [process_transaction_accepted_hashes st t hb]; simp
    · intro hne
      rw [process_transaction_accepted_counter st t hb]
      constructor
      · rw [relevance_score_bump_other _ _ _ (Ne.symm hne)]
        exact relevance_score_bump_self _ _
      · rw [relevance_score_bump_self]
        rw [relevance_score_bump_other _ _ _ hne]

lemma process_transaction_length_le (st : CrawlState) (t : RawTransaction) :
    (process_transaction st t).blockchain_graph.edges.length ≤
      st.blockchain_graph.edges.length + 1 := by
  cases hb : transaction_accepted st t
  · rw [process_transaction_rejected st t hb]; omega
  · obtain ⟨src, tgt, hedges⟩ := process_transaction_accepted_edges st t hb
    rw [hedges]; simp

lemma graph_data_collection_length_le (l : List RawTransaction) :
    ∀ st : CrawlState,
      (graph_data_collection_procedure st l).blockchain_graph.edges.length ≤
        st.blockchain_graph.edges.length + l.length := by
  induction l with
  | nil => intro st; simp [graph_data_collection_procedure]
  | cons t rest ih =>
    intro st
    have h1 := process_transaction_length_le st t
    have h2 := ih (process_transaction st t)
    simp only [graph_data_collection_procedure, List.foldl_cons,
      List.length_cons] at h2 ⊢
    omega

lemma parse_blockchain_loop_budget (fetch : String → List RawTransaction)
    (M B : Nat) (hB : ∀ a, (fetch a).length ≤ B) :
    ∀ (fuel : Nat) (st : CrawlState) (g : G),
      st.blockchain_graph.edges.length < M + B →
      parse_blockchain_loop fetch M fuel st = .done g →
      g.edges.length < M + B := by
  intro fuel
  induction fuel with
  | zero => intro st g _ h; simp [parse_blockchain_loop] at h
  | succ fuel ih =>
    intro st g hlt h
    rw [parse_blockchain_loop] at h
    by_cases hstop : M ≤ st.blockchain_graph.edges.length
    · rw [if_pos hstop] at h
      cases h
      exact hlt
    · rw [if_neg hstop] at h
      rcases hsel : select_priority_address st.address_relevance_counter
          st.trajectory with _ | a
      · rw [hsel] at h; cases h
      · rw [hsel] at h
        apply ih _ g _ h
        have h1 := graph_data_collection_length_le (fetch a)
          { st with trajectory := st.trajectory ++ [a] }
        have h2 := hB a
        have hproj : ({ st with trajectory := st.trajectory ++ [a] } :
            CrawlState).blockchain_graph = st.blockchain_graph := rfl
        rw [hproj] at h1
        omega

/-- C2 (amended): the edge budget is approximate. The loop tests the budget
only at the top of an iteration, so the returned graph can exceed the
configured maximum `M` by up to one batch: whenever every fetched batch has
at most `B` transactions and `M ≥ 1`, the returned graph has fewer than
`M + B` edges (the count was below `M` before the final expansion step). -/
theorem C2_budget_amended (fetch : String → List RawTransaction)
    (M B fuel : Nat) (seed : String) (g : G)
    (hM : 1 ≤ M) (hB : ∀ a, (fetch a).length ≤ B)
    (h : parse_blockchain fetch M fuel seed = .done g) :
    g.edges.length < M + B := by
  apply parse_blockchain_loop_budget fetch M B hB fuel _ g _ h
  show (0 : Nat) < M + B
  omega

/-- Counterexample to C2 as stated: with edge budget `M = 1`, one expansion
step whose batch holds two accepted transactions returns a graph with
2 > 1 edges. -/
theorem C2_budget_counterexample :
    parse_blockchain (fun _ => [⟨"a", "b", "h1", 5, 10, "0", ""⟩,
      ⟨"b", "a", "h2", 6, 20, "0", ""⟩]) 1 2 "s" =
      .done ⟨["a", "b"], [⟨0, 1, ⟨"h1", 5, 10⟩⟩, ⟨1, 0, ⟨"h2", 6, 20⟩⟩]⟩ ∧
    ¬ ((G.mk ["a", "b"] [⟨0, 1, ⟨"h1", 5, 10⟩⟩,
      ⟨1, 0, ⟨"h2", 6, 20⟩⟩]).edges.length ≤ 1) := by
  exact ⟨by decide, by decide⟩

/-- Witness for the amended C2 at the counterexample's run:
`M = 1`, batches of at most `B = 2`, and the returned graph has
`2 < 1 + 2` edges. -/
theorem C2_budget_amended_witness :
    (G.mk ["a", "b"] [⟨0, 1, ⟨"h1", 5, 10⟩⟩,
      ⟨1, 0, ⟨"h2", 6, 20⟩⟩]).edges.length < 1 + 2 :=
  C2_budget_amended (fun _ => [⟨"a", "b", "h1", 5, 10, "0", ""⟩,
      ⟨"b", "a", "h2", 6, 20, "0", ""⟩]) 1 2 2 "s"
    ⟨["a", "b"], [⟨0, 1, ⟨"h1", 5, 10⟩⟩, ⟨1, 0, ⟨"h2", 6, 20⟩⟩]⟩
    (by decide) (fun _ => Nat.le.refl) (by decide)

/-- Witness for C1 at a concrete run: a batch repeats the hash `h1`, yet the
returned graph carries each hash once. -/
theorem C1_transaction_hash_dedup_witness :
    (edge_hashes ⟨["a", "b"],
      [⟨0, 1, ⟨"h1", 5, 10⟩⟩, ⟨1, 0, ⟨"h2", 6, 20⟩⟩]⟩).Nodup := by
  have h : parse_blockchain (fun _ => [⟨"a", "b", "h1", 5, 10, "0", ""⟩,
      ⟨"a", "b", "h1", 5, 10, "0", ""⟩, ⟨"b", "a", "h2", 6, 20, "0", ""⟩])
      2 2 "s" =
      .done ⟨["a", "b"], [⟨0, 1, ⟨"h1", 5, 10⟩⟩, ⟨1, 0, ⟨"h2", 6, 20⟩⟩]⟩ := by
    decide
  exact (C1_transaction_hash_dedup _ 2 2 "s" _ h).1

instance : IsTotal (String × Nat) (fun a b => b.2 ≤ a.2) :=
  ⟨fun a b => Nat.le_total b.2 a.2⟩

instance : IsTrans (String × Nat) (fun a b => b.2 ≤ a.2) :=
  ⟨fun _ _ _ hab hbc => Nat.le_trans hbc hab⟩

lemma find_not_visited_spec (trajectory : List String) :
    ∀ l : List (String × Nat),
      l.Sorted (fun a b => b.2 ≤ a.2) →
      ∀ a, (l.map Prod.fst).find?
          (fun address => !trajectory.contains address) = some a →
        a ∉ trajectory ∧ ∃ s, (a, s) ∈ l ∧
          ∀ p ∈ l, p.1 ∉ trajectory → p.2 ≤ s := by
  intro l
  induction l with
  | nil => intro _ a ha; simp at ha
  | cons p rest ih =>
    intro hsort a ha
    rw [List.map_cons] at ha
    cases hcond : trajectory.contains p.1
    · simp only [List.find?, hcond, Bool.not_false] at ha
      have ha' : p.1 = a := by simpa using ha
      subst ha'
      have hnotin : p.1 ∉ trajectory := by simpa using hcond
      refine ⟨hnotin, p.2, ?_, ?_⟩
      · exact List.mem_cons_self p rest
      · intro q hq _
        rcases List.mem_cons.mp hq with rfl | hq'
        · exact Nat.le_refl _
        · exact List.rel_of_sorted_cons hsort q hq'
    · simp only [List.find?, hcond, Bool.not_true] at ha
      obtain ⟨hnot, s, hs, hmax⟩ := ih (List.sorted_cons.mp hsort).2 a ha
      refine ⟨hnot, s, List.mem_cons_of_mem _ hs, ?_⟩
      intro q hq hqvis
      rcases List.mem_cons.mp hq with rfl | hq'
      · exact absurd (by simpa using hcond) hqvis
      · exact hmax q hq' hqvis

lemma find_not_visited_none (trajectory : List String)
    (l : List (String × Nat))
    (h : (l.map Prod.fst).find?
      (fun address => !trajectory.contains address) = none) :
    ∀ p ∈ l, p.1 ∈ trajectory := by
  intro p hp
  rw [List.find?_eq_none] at h
  have := h p.1 (List.mem_map_of_mem _ hp)
  simpa using this

/-- C8 (amended): the Selection step does pick an unvisited address of
maximal relevance score (the stable descending sort followed by the first
unvisited entry), and when no such address exists the selection is `none`;
but then the loop hits the Rust `.find(...).unwrap()` panic — the crawl
aborts instead of returning the graph built so far (unless the edge budget
already ended the loop at the top of the iteration). -/
theorem C8_exhausted_frontier (fetch : String → List RawTransaction)
    (M fuel : Nat) (st : CrawlState) :
    (∀ a, select_priority_address st.address_relevance_counter
        st.trajectory = some a →
      a ∉ st.trajectory ∧ ∃ s, (a, s) ∈ st.address_relevance_counter ∧
        ∀ p ∈ st.address_relevance_counter, p.1 ∉ st.trajectory → p.2 ≤ s) ∧
    (select_priority_address st.address_relevance_counter
        st.trajectory = none →
      ∀ p ∈ st.address_relevance_counter, p.1 ∈ st.trajectory) ∧
    (st.blockchain_graph.edges.length < M →
      select_priority_address st.address_relevance_counter
        st.trajectory = none →
      parse_blockchain_loop fetch M (fuel + 1) st = .panicked) := by
  have hperm := List.perm_insertionSort (fun a b : String × Nat => b.2 ≤ a.2)
    st.address_relevance_counter
  refine ⟨?_, ?_, ?_⟩
  · intro a ha
    obtain ⟨hnot, s, hs, hmax⟩ := find_not_visited_spec st.trajectory _
      (List.sorted_insertionSort _ st.address_relevance_counter) a ha
    refine ⟨hnot, s, hperm.mem_iff.mp hs, ?_⟩
    intro p hp hpvis
    exact hmax p (hperm.mem_iff.mpr hp) hpvis
  · intro hnone p hp
    exact find_not_visited_none st.trajectory _ hnone p (hperm.mem_iff.mpr hp)
  · intro hlt hnone
    rw [parse_blockchain_loop, if_neg (Nat.not_le.mpr hlt)]
    rw [hnone]

/-- Counterexample to C8 as stated: a fetch that returns no transactions
leaves the seed as the only known address; once it is visited the next
Selection step finds no unvisited address and the crawl panics — it does not
terminate with the graph built so far (here the empty graph). -/
theorem C8_exhausted_frontier_counterexample :
    parse_blockchain (fun _ => []) 5 3 "SEED" = .panicked ∧
    CrawlResult.panicked ≠ .done ⟨[], []⟩ := by
  exact ⟨by decide, by decide⟩

lemma alookup_eq_none_iff (l : List (String × Nat)) (key : String) :
    alookup l key = none ↔ key ∉ l.map Prod.fst := by
  induction l with
  | nil => simp [alookup]
  | cons p rest ih =>
    by_cases h : p.1 = key
    · simp [alookup, h]
    · simp [alookup, h, ih, Ne.symm h]

/-- The node-identity invariant of C9 (amended): the graph's node labels are
exactly the keys of `node_indices`, in order, with no duplicates. -/
def nodes_inv (st : CrawlState) : Prop :=
  st.blockchain_graph.nodes = st.node_indices.map Prod.fst ∧
    st.blockchain_graph.nodes.Nodup

lemma ensure_node_nodes (idx : List (String × Nat)) (g : G) (a : String)
    (h1 : g.nodes = idx.map Prod.fst) (h2 : g.nodes.Nodup) :
    (ensure_node idx g a).2.2.nodes =
      (ensure_node idx g a).2.1.map Prod.fst ∧
    (ensure_node idx g a).2.2.nodes.Nodup := by
  rcases h : alookup idx a with _ | i
  · have ha : a ∉ idx.map Prod.fst := (alookup_eq_none_iff idx a).mp h
    refine ⟨?_, ?_⟩
    · simp [ensure_node, h, h1]
    · simp only [ensure_node, h]
      rw [List.nodup_append]
      refine ⟨h2, List.nodup_singleton a, ?_⟩
      intro x hx hx'
      rw [List.mem_singleton] at hx'
      subst hx'
      exact ha (h1 ▸ hx)
  · exact ⟨by simp [ensure_node, h, h1], by simp [ensure_node, h, h2]⟩

lemma process_transaction_accepted_nodes (st : CrawlState)
    (t : RawTransaction) (h : transaction_accepted st t = true) :
    (process_transaction st t).blockchain_graph.nodes =
      (ensure_node (ensure_node st.node_indices st.blockchain_graph
        t.«from»).2.1 (ensure_node st.node_indices st.blockchain_graph
        t.«from»).2.2 t.to).2.2.nodes ∧
    (process_transaction st t).node_indices =
      (ensure_node (ensure_node st.node_indices st.blockchain_graph
        t.«from»).2.1 (ensure_node st.node_indices st.blockchain_graph
        t.«from»).2.2 t.to).2.1 := by
  constructor <;> simp [process_transaction, h]

lemma process_transaction_nodes_inv (st : CrawlState) (t : RawTransaction)
    (h : nodes_inv st) : nodes_inv (process_transaction st t) := by
  cases hb : transaction_accepted st t
  · rw [process_transaction_rejected st t hb]; exact h
  · have e1 := ensure_node_nodes st.node_indices st.blockchain_graph
      t.«from» h.1 h.2
    have e2 := ensure_node_nodes _ _ t.to e1.1 e1.2
    have hn := process_transaction_accepted_nodes st t hb
    exact ⟨hn.1 ▸ hn.2 ▸ e2.1, hn.1 ▸ e2.2⟩

/-- C9 (amended): address identity is case-sensitive. Only the seed address
is lowercased, and only on its way into the relevance counter; the graph
holds exactly one node per unique address string under exact (case-
sensitive) string comparison. -/
theorem C9_address_identity (fetch : String → List RawTransaction)
    (M fuel : Nat) (seed : String) (g : G)
    (h : parse_blockchain fetch M fuel seed = .done g) :
    g.nodes.Nodup ∧
    parse_blockchain fetch M fuel seed = parse_blockchain_loop fetch M fuel
      { blockchain_graph := ⟨[], []⟩
        node_indices := []
        edges := []
        address_relevance_counter := [(to_lowercase seed, 1)]
        trajectory := [] } := by
  constructor
  · obtain ⟨st', hP, hg⟩ := parse_blockchain_loop_reaches fetch M nodes_inv
      (fun st t hp => process_transaction_nodes_inv st t hp)
      (fun st a hp => hp) fuel _ g ⟨rfl, List.nodup_nil⟩ h
    exact hg ▸ hP.2
  · rfl

/-- Counterexample to C9 as stated: two fetched transactions whose from-
addresses differ only in letter case produce two distinct graph nodes, so
the node set is not one-per-address under case-insensitive comparison. -/
theorem C9_address_identity_counterexample :
    parse_blockchain (fun _ => [⟨"0xAB", "0xCD", "h1", 5, 10, "0", ""⟩,
      ⟨"0xab", "0xCD", "h2", 6, 20, "0", ""⟩]) 2 2 "s" =
      .done ⟨["0xAB", "0xCD", "0xab"],
        [⟨0, 1, ⟨"h1", 5, 10⟩⟩, ⟨2, 1, ⟨"h2", 6, 20⟩⟩]⟩ ∧
    "0xAB" ≠ "0xab" ∧
    to_lowercase "0xAB" = to_lowercase "0xab" ∧
    "0xAB" ∈ (G.mk ["0xAB", "0xCD", "0xab"]
      [⟨0, 1, ⟨"h1", 5, 10⟩⟩, ⟨2, 1, ⟨"h2", 6, 20⟩⟩]).nodes ∧
    "0xab" ∈ (G.mk ["0xAB", "0xCD", "0xab"]
      [⟨0, 1, ⟨"h1", 5, 10⟩⟩, ⟨2, 1, ⟨"h2", 6, 20⟩⟩]).nodes := by
  exact ⟨by decide, by decide, by decide, by decide, by decide⟩

/-- Witness for the amended C9 at a concrete run: the three node labels of
the crawled graph (two of them case-variants of the same address) are
pairwise distinct strings. -/
theorem C9_address_identity_witness :
    (G.mk ["0xAB", "0xCD", "0xab"]
      [⟨0, 1, ⟨"h1", 5, 10⟩⟩, ⟨2, 1, ⟨"h2", 6, 20⟩⟩]).nodes.Nodup := by
  have h : parse_blockchain (fun _ => [⟨"0xAB", "0xCD", "h1", 5, 10, "0", ""⟩,
      ⟨"0xab", "0xCD", "h2", 6, 20, "0", ""⟩]) 2 2 "s" =
      .done ⟨["0xAB", "0xCD", "0xab"],
        [⟨0, 1, ⟨"h1", 5, 10⟩⟩, ⟨2, 1, ⟨"h2", 6, 20⟩⟩]⟩ := by decide
  exact (C9_address_identity _ 2 2 "s" _ h).1

/-- USD value of an edge payload under the price series: the price lookup of
the edge's timestamp (which may panic), then `(wei / 1e18) * price`. -/
def usd_value (prices : List EthPriceRecord) (t : SimplifiedTransaction) :
    Option Rat :=
  (get_price_at_timestamp t.timeStamp prices).map
    (fun price => transaction_value_in_usd t price)

/-- `graph.edges_connecting(a, b)`: all edges from node `a` to node `b`
(also the body of the `for edge in graph.edges(node_a) if target == b`
loops of `calculate_two_way_flow`). -/
def edges_connecting (graph : G) (a b : Nat) : List EdgeRec :=
  graph.edges.filter (fun e => e.source == a && e.target == b)

/-- Accumulated USD sum over a list of edges, `none` as soon as one price
lookup panics (each loop iteration of the Rust code adds one value). -/
def sum_usd (prices : List EthPriceRecord) : List EdgeRec → Option Rat
  | [] => some 0
  | e :: rest => do
    let v ← usd_value prices e.weight
    let r ← sum_usd prices rest
    pure (v + r)

/-- One iteration of the outer `for first_edge in graph.edge_references()`
loop of `calculate_two_way_flow`: skip pairs already in `visited_pairs`;
otherwise sum both directions (the reverse direction is summed only when
the endpoints differ), add pair volume and pair flow to the totals, and mark
both orientations visited. The `detailed_log` side artifact is not
modelled. -/
def two_way_flow_step (graph : G) (prices : List EthPriceRecord)
    (acc : Option (List (Nat × Nat) × Rat × Rat)) (first_edge : EdgeRec) :
    Option (List (Nat × Nat) × Rat × Rat) := do
  let (visited_pairs, total_volume_usd, total_flow_usd) ← acc
  let node_a := first_edge.source
  let node_b := first_edge.target
  if (node_a, node_b) ∈ visited_pairs then
    pure (visited_pairs, total_volume_usd, total_flow_usd)
  else
    let sum_a_to_b_usd ← sum_usd prices (edges_connecting graph node_a node_b)
    let sum_b_to_a_usd ← if node_a = node_b then pure 0
      else sum_usd prices (edges_connecting graph node_b node_a)
    let pair_volume_usd := sum_a_to_b_usd + sum_b_to_a_usd
    let pair_flow_usd := if node_a ≠ node_b
      then |sum_a_to_b_usd - sum_b_to_a_usd| else 0
    pure ((node_b, node_a) :: (node_a, node_b) :: visited_pairs,
      total_volume_usd + pair_volume_usd, total_flow_usd + pair_flow_usd)

/-- `calculate_two_way_flow` of main.rs (without the log string): the fold
over all edges with the visited-pairs set, returning
(total volume, mean = total volume / edge count, total flow). -/
def calculate_two_way_flow (graph : G) (prices : List EthPriceRecord) :
    Option (Rat × Rat × Rat) := do
  let (_, total_volume_usd, total_flow_usd) ←
    graph.edges.foldl (two_way_flow_step graph prices) (some ([], 0, 0))
  pure (total_volume_usd,
    total_volume_usd / (graph.edges.length : Rat), total_flow_usd)

/-- Specification-side directional USD sum, with failed lookups defaulted to
0 (it agrees with the code's sums whenever every lookup succeeds). -/
def sum_usd_total (prices : List EthPriceRecord) (l : List EdgeRec) : Rat :=
  (l.map (fun e => (usd_value prices e.weight).getD 0)).sum

/-- Specification-side sum of USD values of all `a → b` edges. -/
def dir_sum (graph : G) (prices : List EthPriceRecord) (a b : Nat) : Rat :=
  sum_usd_total prices (edges_connecting graph a b)

/-- Pair volume as the code computes it: both directional sums for distinct
endpoints, the self-loop edges counted once for `a = b`. -/
def pair_volume (graph : G) (prices : List EthPriceRecord) (a b : Nat) :
    Rat :=
  dir_sum graph prices a b + (if a = b then 0 else dir_sum graph prices b a)

/-- Pair flow: `|sum a→b − sum b→a|` for distinct endpoints, 0 on the
diagonal. -/
def pair_flow (graph : G) (prices : List EthPriceRecord) (a b : Nat) : Rat :=
  if a = b then 0 else
    |dir_sum graph prices a b - dir_sum graph prices b a|

/-- First-occurrence representatives of the unordered address pairs of an
edge list, extending an already-collected list. -/
def pair_reps : List (Nat × Nat) → List EdgeRec → List (Nat × Nat)
  | reps, [] => reps
  | reps, e :: rest =>
    if (e.source, e.target) ∈ reps ∨ (e.target, e.source) ∈ reps
    then pair_reps reps rest
    else pair_reps (reps ++ [(e.source, e.target)]) rest

/-- The unordered pairs of a graph, one representative each, in order of
first appearance. -/
def pair_list (graph : G) : List (Nat × Nat) := pair_reps [] graph.edges

/-- Sum of pair volumes over a list of pair representatives. -/
def pairs_volume_sum (graph : G) (prices : List EthPriceRecord)
    (reps : List (Nat × Nat)) : Rat :=
  (reps.map (fun p => pair_volume graph prices p.1 p.2)).sum

/-- Sum of pair flows over a list of pair representatives. -/
def pairs_flow_sum (graph : G) (prices : List EthPriceRecord)
    (reps : List (Nat × Nat)) : Rat :=
  (reps.map (fun p => pair_flow graph prices p.1 p.2)).sum

lemma edges_connecting_subset (graph : G) (a b : Nat) :
    ∀ e ∈ edges_connecting graph a b, e ∈ graph.edges := by
  intro e he
  exact (List.mem_filter.mp he).1

lemma sum_usd_eq_total (prices : List EthPriceRecord) :
    ∀ l : List EdgeRec, (∀ e ∈ l, (usd_value prices e.weight).isSome) →
      sum_usd prices l = some (sum_usd_total prices l) := by
  intro l
  induction l with
  | nil => intro _; simp [sum_usd, sum_usd_total]
  | cons e rest ih =>
    intro h
    have he := h e (List.mem_cons_self _ _)
    rcases hv : usd_value prices e.weight with _ | v
    · rw [hv] at he; simp at he
    · rw [sum_usd, hv, ih (fun x hx => h x (List.mem_cons_of_mem _ hx))]
      simp [sum_usd_total, hv]

lemma two_way_fold_spec (graph : G) (prices : List EthPriceRecord)
    (hall : ∀ e ∈ graph.edges, (usd_value prices e.weight).isSome) :
    ∀ (es : List EdgeRec), (∀ e ∈ es, e ∈ graph.edges) →
    ∀ (vis reps : List (Nat × Nat)),
      (∀ x y : Nat, ((x, y) ∈ vis ↔ (x, y) ∈ reps ∨ (y, x) ∈ reps)) →
      ∃ vis',
        es.foldl (two_way_flow_step graph prices)
          (some (vis, pairs_volume_sum graph prices reps,
            pairs_flow_sum graph prices reps)) =
          some (vis', pairs_volume_sum graph prices (pair_reps reps es),
            pairs_flow_sum graph prices (pair_reps reps es)) ∧
        (∀ x y : Nat, ((x, y) ∈ vis' ↔
          (x, y) ∈ pair_reps reps es ∨ (y, x) ∈ pair_reps reps es)) := by
  intro es
  induction es with
  | nil =>
    intro _ vis reps hv
    exact ⟨vis, by simp [pair_reps], by simpa [pair_reps] using hv⟩
  | cons e rest ih =>
    intro hsub vis reps hv
    have hes : ∀ x ∈ rest, x ∈ graph.edges :=
      fun x hx => hsub x (List.mem_cons_of_mem _ hx)
    rw [List.foldl_cons]
    by_cases hmem : (e.source, e.target) ∈ vis
    · have hcond : (e.source, e.target) ∈ reps ∨
          (e.target, e.source) ∈ reps := (hv _ _).mp hmem
      have hstep : two_way_flow_step graph prices
          (some (vis, pairs_volume_sum graph prices reps,
            pairs_flow_sum graph prices reps)) e =
          some (vis, pairs_volume_sum graph prices reps,
            pairs_flow_sum graph prices reps) := by
        simp [two_way_flow_step, hmem]
      rw [hstep, pair_reps, if_pos hcond]
      exact ih hes vis reps hv
    · have hcond : ¬ ((e.source, e.target) ∈ reps ∨
          (e.target, e.source) ∈ reps) := fun hc => hmem ((hv _ _).mpr hc)
      have hab : sum_usd prices (edges_connecting graph e.source e.target) =
          some (dir_sum graph prices e.source e.target) :=
        sum_usd_eq_total prices _
          (fun x hx => hall x (edges_connecting_subset _ _ _ x hx))
      have hba : sum_usd prices (edges_connecting graph e.target e.source) =
          some (dir_sum graph prices e.target e.source) :=
        sum_usd_eq_total prices _
          (fun x hx => hall x (edges_connecting_subset _ _ _ x hx))
      have hstep : two_way_flow_step graph prices
          (some (vis, pairs_volume_sum graph prices reps,
            pairs_flow_sum graph prices reps)) e =
          some ((e.target, e.source) :: (e.source, e.target) :: vis,
            pairs_volume_sum graph prices reps +
              pair_volume graph prices e.source e.target,
            pairs_flow_sum graph prices reps +
              pair_flow graph prices e.source e.target) := by
        by_cases hd : e.source = e.target
        · rw [hd] at hmem hab
          simp [two_way_flow_step, hmem, hab, hd, pair_volume, pair_flow]
        · simp [two_way_flow_step, hmem, hab, hba, hd, pair_volume,
            pair_flow]
      have hvol : pairs_volume_sum graph prices reps +
          pair_volume graph prices e.source e.target =
          pairs_volume_sum graph prices
            (reps ++ [(e.source, e.target)]) := by
        simp [pairs_volume_sum]
      have hflow : pairs_flow_sum graph prices reps +
          pair_flow graph prices e.source e.target =
          pairs_flow_sum graph prices (reps ++ [(e.source, e.target)]) := by
        simp [pairs_flow_sum]
      rw [hstep, hvol, hflow, pair_reps, if_neg hcond]
      have hv' : ∀ x y : Nat,
          ((x, y) ∈ (e.target, e.source) :: (e.source, e.target) :: vis ↔
            (x, y) ∈ reps ++ [(e.source, e.target)] ∨
            (y, x) ∈ reps ++ [(e.source, e.target)]) := by
        intro x y
        simp only [List.mem_cons, List.mem_append, List.mem_singleton,
          List.not_mem_nil, or_false, Prod.mk.injEq, hv x y]
        tauto
      exact ih hes _ _ hv'

lemma pair_reps_mono : ∀ (es : List EdgeRec) (reps : List (Nat × Nat))
    (p : Nat × Nat), p ∈ reps → p ∈ pair_reps reps es := by
  intro es
  induction es with
  | nil => intro reps p hp; simpa [pair_reps] using hp
  | cons e rest ih =>
    intro reps p hp
    rw [pair_reps]
    by_cases hc : (e.source, e.target) ∈ reps ∨ (e.target, e.source) ∈ reps
    · rw [if_pos hc]; exact ih reps p hp
    · rw [if_neg hc]; exact ih _ p (List.mem_append.mpr (Or.inl hp))

lemma pair_reps_cover : ∀ (es : List EdgeRec) (reps : List (Nat × Nat))
    (e : EdgeRec), e ∈ es →
    ((e.source, e.target) ∈ pair_reps reps es ∨
      (e.target, e.source) ∈ pair_reps reps es) := by
  intro es
  induction es with
  | nil => intro _ _ he; simp at he
  | cons f rest ih =>
    intro reps e he
    rw [pair_reps]
    by_cases hc : (f.source, f.target) ∈ reps ∨ (f.target, f.source) ∈ reps
    · rw [if_pos hc]
      rcases List.mem_cons.mp he with rfl | he'
      · rcases hc with h | h
        · exact Or.inl (pair_reps_mono rest reps _ h)
        · exact Or.inr (pair_reps_mono rest reps _ h)
      · exact ih reps e he'
    · rw [if_neg hc]
      rcases List.mem_cons.mp he with rfl | he'
      · exact Or.inl (pair_reps_mono rest _ _
          (List.mem_append.mpr (Or.inr (List.mem_singleton.mpr rfl))))
      · exact ih _ e he'

lemma pair_reps_support : ∀ (es : List EdgeRec) (reps : List (Nat × Nat))
    (p : Nat × Nat), p ∈ pair_reps reps es →
    p ∈ reps ∨ ∃ e ∈ es, (e.source, e.target) = p := by
  intro es
  induction es with
  | nil => intro reps p hp; exact Or.inl (by simpa [pair_reps] using hp)
  | cons f rest ih =>
    intro reps p hp
    rw [pair_reps] at hp
    by_cases hc : (f.source, f.target) ∈ reps ∨ (f.target, f.source) ∈ reps
    · rw [if_pos hc] at hp
      rcases ih reps p hp with h | ⟨e, he, heq⟩
      · exact Or.inl h
      · exact Or.inr ⟨e, List.mem_cons_of_mem _ he, heq⟩
    · rw [if_neg hc] at hp
      rcases ih _ p hp with h | ⟨e, he, heq⟩
      · rcases List.mem_append.mp h with h' | h'
        · exact Or.inl h'
        · exact Or.inr ⟨f, List.mem_cons_self _ _,
            (List.mem_singleton.mp h').symm⟩
      · exact Or.inr ⟨e, List.mem_cons_of_mem _ he, heq⟩

lemma pair_reps_pairwise : ∀ (es : List EdgeRec) (reps : List (Nat × Nat)),
    reps.Pairwise (fun p q => p ≠ q ∧ p ≠ (q.2, q.1)) →
    (pair_reps reps es).Pairwise (fun p q => p ≠ q ∧ p ≠ (q.2, q.1)) := by
  intro es
  induction es with
  | nil => intro reps h; simpa [pair_reps] using h
  | cons f rest ih =>
    intro reps h
    rw [pair_reps]
    by_cases hc : (f.source, f.target) ∈ reps ∨ (f.target, f.source) ∈ reps
    · rw [if_pos hc]; exact ih reps h
    · rw [if_neg hc]
      apply ih
      rw [List.pairwise_append]
      push_neg at hc
      refine ⟨h, List.pairwise_singleton _ _, ?_⟩
      intro p hp q hq
      rw [List.mem_singleton] at hq
      subst hq
      constructor
      · exact fun heq => hc.1 (heq ▸ hp)
      · exact fun heq => hc.2 (heq ▸ hp)

/-- C6 (amended): the two-way pairwise analytics. When the computation
succeeds, the reported total volume and total flow are the sums of pair
volumes and pair flows over a list that holds each unordered pair with at
least one edge exactly once (every edge's pair is represented, every listed
pair has an edge, and no two listed pairs coincide as unordered pairs). Per
pair, the flow is `|sum A→B − sum B→A|` for distinct endpoints and 0 on the
diagonal, and the volume is the sum of both directional sums for distinct
endpoints while a self pair counts its edges once (see `pair_volume`). -/
theorem C6_two_way_flow (graph : G) (prices : List EthPriceRecord)
    (V m F : Rat)
    (hall : ∀ e ∈ graph.edges, (usd_value prices e.weight).isSome)
    (h : calculate_two_way_flow graph prices = some (V, m, F)) :
    V = pairs_volume_sum graph prices (pair_list graph) ∧
    F = pairs_flow_sum graph prices (pair_list graph) ∧
    m = V / (graph.edges.length : Rat) ∧
    (∀ e ∈ graph.edges, (e.source, e.target) ∈ pair_list graph ∨
      (e.target, e.source) ∈ pair_list graph) ∧
    (∀ p ∈ pair_list graph, ∃ e ∈ graph.edges, (e.source, e.target) = p) ∧
    (pair_list graph).Pairwise (fun p q => p ≠ q ∧ p ≠ (q.2, q.1)) := by
  obtain ⟨vis', hfold, _⟩ := two_way_fold_spec graph prices hall graph.edges
    (fun e he => he) [] [] (by intro x y; simp)
  have h0 : (some (([] : List (Nat × Nat)), (0 : Rat), (0 : Rat))) =
      some (([] : List (Nat × Nat)), pairs_volume_sum graph prices [],
        pairs_flow_sum graph prices []) := by
    simp [pairs_volume_sum, pairs_flow_sum]
  rw [calculate_two_way_flow, h0, hfold] at h
  simp only [Option.bind_eq_bind, Option.some_bind, Option.pure_def,
    Option.some_inj, Prod.mk.injEq] at h
  refine ⟨?_, ?_, ?_, ?_, ?_, ?_⟩
  · exact h.1.symm
  · exact h.2.2.symm
  · rw [← h.2.1, h.1]
  · exact fun e he => pair_reps_cover graph.edges [] e he
  · intro p hp
    exact (pair_reps_support graph.edges [] p hp).resolve_left
      (by simp)
  · exact pair_reps_pairwise graph.edges [] List.Pairwise.nil

/-- Counterexample to C6 as stated: for a graph holding a single self-loop
worth 3 USD, the analytics reports a pair (and total) volume of 3, while
"the sum of both directional sums" for that pair is 3 + 3 = 6 — the self
pair's edges are counted once, not twice. -/
theorem C6_two_way_flow_counterexample :
    calculate_two_way_flow ⟨["A"], [⟨0, 0, ⟨"h", 10 ^ 18, 0⟩⟩]⟩ [⟨0, 3⟩] =
      some (3, 3, 0) ∧
    pair_list ⟨["A"], [⟨0, 0, ⟨"h", 10 ^ 18, 0⟩⟩]⟩ = [(0, 0)] ∧
    dir_sum ⟨["A"], [⟨0, 0, ⟨"h", 10 ^ 18, 0⟩⟩]⟩ [⟨0, 3⟩] 0 0 +
      dir_sum ⟨["A"], [⟨0, 0, ⟨"h", 10 ^ 18, 0⟩⟩]⟩ [⟨0, 3⟩] 0 0 = 6 ∧
    (3 : Rat) ≠ 6 := by
  refine ⟨?_, by decide, ?_, by norm_num⟩
  · norm_num [calculate_two_way_flow, two_way_flow_step, edges_connecting,
      sum_usd, usd_value, get_price_at_timestamp, bucket_matches,
      last_record, List.find?, List.filter, transaction_value_in_usd]
  · norm_num [dir_sum, sum_usd_total, edges_connecting, usd_value,
      get_price_at_timestamp, bucket_matches, last_record, List.find?,
      List.filter, transaction_value_in_usd]

/-- Witness for the amended C6 at a concrete input: one 2-USD edge A→B and
one 1-USD edge B→A give total volume 3 and total flow 1, matching the sums
over the single unordered pair. -/
theorem C6_two_way_flow_witness :
    calculate_two_way_flow ⟨["A", "B"], [⟨0, 1, ⟨"h1", 2 * 10 ^ 18, 0⟩⟩,
      ⟨1, 0, ⟨"h2", 10 ^ 18, 0⟩⟩]⟩ [⟨0, 1⟩] = some (3, 3 / 2, 1) ∧
    (3 : Rat) = pairs_volume_sum
      ⟨["A", "B"], [⟨0, 1, ⟨"h1", 2 * 10 ^ 18, 0⟩⟩,
        ⟨1, 0, ⟨"h2", 10 ^ 18, 0⟩⟩]⟩ [⟨0, 1⟩]
      (pair_list ⟨["A", "B"], [⟨0, 1, ⟨"h1", 2 * 10 ^ 18, 0⟩⟩,
        ⟨1, 0, ⟨"h2", 10 ^ 18, 0⟩⟩]⟩) ∧
    (1 : Rat) = pairs_flow_sum
      ⟨["A", "B"], [⟨0, 1, ⟨"h1", 2 * 10 ^ 18, 0⟩⟩,
        ⟨1, 0, ⟨"h2", 10 ^ 18, 0⟩⟩]⟩ [⟨0, 1⟩]
      (pair_list ⟨["A", "B"], [⟨0, 1, ⟨"h1", 2 * 10 ^ 18, 0⟩⟩,
        ⟨1, 0, ⟨"h2", 10 ^ 18, 0⟩⟩]⟩) := by
  have h : calculate_two_way_flow ⟨["A", "B"],
      [⟨0, 1, ⟨"h1", 2 * 10 ^ 18, 0⟩⟩, ⟨1, 0, ⟨"h2", 10 ^ 18, 0⟩⟩]⟩
      [⟨0, 1⟩] = some (3, 3 / 2, 1) := by
    norm_num [calculate_two_way_flow, two_way_flow_step, edges_connecting,
      sum_usd, usd_value, get_price_at_timestamp, bucket_matches,
      last_record, List.find?, List.filter, transaction_value_in_usd]
  have hall : ∀ e ∈ (G.mk ["A", "B"] [⟨0, 1, ⟨"h1", 2 * 10 ^ 18, 0⟩⟩,
      ⟨1, 0, ⟨"h2", 10 ^ 18, 0⟩⟩]).edges,
      (usd_value [⟨0, 1⟩] e.weight).isSome := by decide
  exact ⟨h, (C6_two_way_flow _ _ _ _ _ hall h).1,
    (C6_two_way_flow _ _ _ _ _ hall h).2.1⟩
